import Mathlib

set_option maxHeartbeats 1000000

namespace RustG

/-- The 2D vector struct `DMVec2` of src/src/geometry.rs. The Rust struct also
carries serialization-only optional `area`/`cell` slots, which are `None`
throughout the core computation and are modelled at the reply level instead;
the `f64` coordinates are idealized as exact rationals. -/
structure DMVec2 where
  x : ℚ
  y : ℚ
deriving DecidableEq

instance : Inhabited DMVec2 := ⟨⟨0, 0⟩⟩

/-- Embedding of `DMVec2::polygon_area`: a loop over `i` in `0..size` with
`j = (i + 1) % size`, accumulating `+ x_i * y_j` and `- y_i * x_j` into an
accumulator starting at `0`. -/
def polygon_area (vertices : List DMVec2) : ℚ :=
  let size := vertices.length
  (List.range size).foldl
    (fun area i =>
      let j := (i + 1) % size
      area + (vertices.getD i default).x * (vertices.getD j default).y
           - (vertices.getD i default).y * (vertices.getD j default).x)
    0

/-- Spec-side shoelace sum, written from the spec formula of §4.5:
`Σ_{i=0}^{n-1} (x_i·y_{(i+1) mod n} − y_i·x_{(i+1) mod n})`, for comparison
with the source's `polygon_area`. -/
def shoelaceSum (vertices : List DMVec2) : ℚ :=
  ((List.range vertices.length).map
    (fun i =>
      (vertices.getD i default).x * (vertices.getD ((i + 1) % vertices.length) default).y
        - (vertices.getD i default).y * (vertices.getD ((i + 1) % vertices.length) default).x)).sum

/-- Spec-side shoelace signed area, with the 0.5 factor of the textbook
formula (§4.5). -/
def shoelaceArea (vertices : List DMVec2) : ℚ := shoelaceSum vertices / 2

/-- Apply `f` to the element at index `n`, leaving the list unchanged when `n`
is out of range. Models the Rust indexed access `&mut self.edges[a]`; in the
source, indices are in range by construction from the triangulator's index
space (an out-of-range index would panic), so theorems that depend on the
indexing carry explicit in-range hypotheses. -/
def listModify {α : Type} (f : α → α) : ℕ → List α → List α
  | _, [] => []
  | 0, l :: ls => f l :: ls
  | n + 1, l :: ls => l :: listModify f n ls

/-- The adjacency graph struct `DMGraph`: `count` vertices, and for each index
a list of neighbor indices. -/
structure DMGraph where
  count : ℕ
  edges : List (List ℕ)
deriving DecidableEq

/-- Embedding of `DMGraph::empty_of_size`. -/
def DMGraph.empty_of_size (size : ℕ) : DMGraph :=
  { count := size, edges := List.replicate size [] }

/-- Embedding of `DMGraph::connect_single`: pushes `b` onto `edges[a]` unless
a linear scan finds it already present. -/
def DMGraph.connect_single (g : DMGraph) (a b : ℕ) : DMGraph :=
  { g with edges := listModify (fun l => if b ∈ l then l else l ++ [b]) a g.edges }

/-- Embedding of `DMGraph::connect`: inserts the undirected edge by updating
both endpoint lists in the same operation. -/
def DMGraph.connect (g : DMGraph) (a b : ℕ) : DMGraph :=
  (g.connect_single a b).connect_single b a

/-- The neighbor list of vertex `i` (empty for an out-of-range index). -/
def DMGraph.neighbors (g : DMGraph) (i : ℕ) : List ℕ := g.edges.getD i []

/-- Grouping of a flat triangle-index list into vertex triples, as
`chunks_exact(3)` does in both byond functions (a trailing remainder of fewer
than 3 indices is dropped). -/
def chunks3 : List ℕ → List (ℕ × ℕ × ℕ)
  | a :: b :: c :: rest => (a, b, c) :: chunks3 rest
  | _ => []

/-- One loop iteration of the graph-building loops: connect the three
undirected edges of a triangle `(a, b, c)`. -/
def insertTriangle (g : DMGraph) (t : ℕ × ℕ × ℕ) : DMGraph :=
  ((g.connect t.1 t.2.1).connect t.1 t.2.2).connect t.2.1 t.2.2

/-- The graph-building loop over a flat triangle-index list. -/
def insertTriangles (g : DMGraph) (triangles : List ℕ) : DMGraph :=
  (chunks3 triangles).foldl insertTriangle g

/-- Graph construction as performed by both byond functions: start from
`empty_of_size count` and insert every triangle's edges. -/
def buildGraph (count : ℕ) (triangles : List ℕ) : DMGraph :=
  insertTriangles (DMGraph.empty_of_size count) triangles

/-- Embedding of the byond function `geometry_delaunay_triangulate_to_graph`.
The external `delaunator::triangulate` (not part of src/) is passed as the
`triangulate` argument, producing the flat triangle-index list. -/
def geometry_delaunay_triangulate_to_graph
    (triangulate : List DMVec2 → List ℕ) (points : List DMVec2) : DMGraph :=
  buildGraph points.length (triangulate points)

/-- A sequence of `connect` operations applied to an initially empty graph. -/
def applyConnects (size : ℕ) (ops : List (ℕ × ℕ)) : DMGraph :=
  ops.foldl (fun g p => g.connect p.1 p.2) (DMGraph.empty_of_size size)

/-- Cross product of the displacements `q - p` and `r - p`; zero exactly when
the three points are collinear. -/
def cross (p q r : DMVec2) : ℚ :=
  (q.x - p.x) * (r.y - p.y) - (q.y - p.y) * (r.x - p.x)

/-- Decidable test that all points of a list lie on one line. -/
def collinearB (points : List DMVec2) : Bool :=
  points.all (fun p => points.all (fun q => points.all (fun r => decide (cross p q r = 0))))

/-- Modelled from the spec: the degenerate-input behavior of the external
`delaunator` triangulation (§4.1, the crate is not under src/) — for N ≤ 2
points, or an all-collinear point set, no valid triangle exists and the
returned flat triangle list is empty. -/
def DelaunayDegenerate (triangulate : List DMVec2 → List ℕ) : Prop :=
  ∀ points : List DMVec2,
    points.length ≤ 2 ∨ collinearB points = true → triangulate points = []

/-- Classes of `f64` values that the flag comparisons distinguish: NaN,
negative zero, the infinities, and ordinary finite values (idealized as
rationals, with `finite 0` the positive zero). -/
inductive F64 where
  | nan : F64
  | negZero : F64
  | posInfty : F64
  | negInfty : F64
  | finite : ℚ → F64
deriving DecidableEq

/-- The IEEE-754 comparison `flag != 0.0` used by the source on its `area` and
`cell` request flags: NaN compares unequal to everything (so `!=` is true),
and negative zero compares equal to positive zero (so `!=` is false). -/
def fpNeZero : F64 → Bool
  | .nan => true
  | .negZero => false
  | .posInfty => true
  | .negInfty => true
  | .finite q => decide (q ≠ 0)

/-- A bounding box as handed to `voronoice::BoundingBox::new`: center, width,
height. -/
structure BoundingBox where
  center : DMVec2
  width : ℚ
  height : ℚ
deriving DecidableEq

/-- The min/max scanning loop of `geometry_delaunay_voronoi_graph`. The source
initializes the four bounds to `±f64::INFINITY` and folds `min`/`max` over the
points; `none` models the infinite initial accumulator, so for a nonempty list
the result is `some (x_low, x_high, y_low, y_high)`. -/
def scanBounds (points : List DMVec2) : Option (ℚ × ℚ × ℚ × ℚ) :=
  points.foldl
    (fun acc p =>
      match acc with
      | none => some (p.x, p.x, p.y, p.y)
      | some (xl, xh, yl, yh) =>
          some (min xl p.x, max xh p.x, min yl p.y, max yh p.y))
    none

/-- The bounding box `geometry_delaunay_voronoi_graph` computes: center at
`low + (high - low) * 0.5` per axis, width `(x_high - x_low) + margin * 2`,
height `(y_high - y_low) + margin * 2`. For an empty point set the source's
bounds stay infinite and the box dimensions are not finite numbers; that
unusable box is modelled as `none`. -/
def voronoiBoundingBox (points : List DMVec2) (margin : ℚ) : Option BoundingBox :=
  match scanBounds points with
  | none => none
  | some (xl, xh, yl, yh) =>
      some { center := { x := xl + (xh - xl) * (1/2), y := yl + (yh - yl) * (1/2) }
             width := (xh - xl) + margin * 2
             height := (yh - yl) + margin * 2 }

/-- Modelled from the spec: the result of the external `voronoice` diagram
construction (§4.4, the crate is not under src/) — the dual triangulation as a
flat triangle-index list, and for each site the ordered vertex polygon of the
site's cell clipped to the bounding box. -/
structure VoronoiDiagram where
  triangles : List ℕ
  cells : List (List DMVec2)
deriving DecidableEq

/-- The decoded call payload `DMDelaunayVoronoiCall`; the `area` and `cell`
request flags keep their `f64` nature. -/
structure DMDelaunayVoronoiCall where
  area : F64
  cell : F64
  margin : ℚ
  points : List DMVec2

/-- The reply payload `DMDelaunayVoronoiReturn`. -/
structure DMDelaunayVoronoiReturn where
  graph : DMGraph
  areas : List (Option ℚ)
  cells : List (Option (List DMVec2))
deriving DecidableEq

/-- Embedding of the byond function `geometry_delaunay_voronoi_graph`. The
external `voronoice` builder is the `build` argument (modelled from the spec,
§4.3/§4.4: it returns `none` on inputs where no diagram exists, e.g. a
degenerate bounding box). An overall `none` models the call aborting with a
single error signal (`.build().unwrap()` panics) and returning nothing. -/
def geometry_delaunay_voronoi_graph
    (build : List DMVec2 → BoundingBox → Option VoronoiDiagram)
    (call : DMDelaunayVoronoiCall) : Option DMDelaunayVoronoiReturn :=
  match voronoiBoundingBox call.points call.margin with
  | none => none
  | some bb =>
    match build call.points bb with
    | none => none
    | some vd =>
      let count := call.points.length
      let requiresArea := fpNeZero call.area
      let requiresCell := fpNeZero call.cell
      some
        { graph := buildGraph count vd.triangles
          areas := (List.range count).map
            (fun i => if requiresArea then some (polygon_area (vd.cells.getD i [])) else none)
          cells := (List.range count).map
            (fun i => if requiresCell then some (vd.cells.getD i []) else none) }

/-- Edge direction `a → b` is present, or `a` is out of range (where the
source would have panicked on first touch). -/
def Present (g : DMGraph) (a b : ℕ) : Prop :=
  b ∈ g.neighbors a ∨ g.edges.length ≤ a

/-- All six directed edges of a triangle are present. -/
def PresentTri (g : DMGraph) (t : ℕ × ℕ × ℕ) : Prop :=
  Present g t.1 t.2.1 ∧ Present g t.2.1 t.1 ∧
  Present g t.1 t.2.2 ∧ Present g t.2.2 t.1 ∧
  Present g t.2.1 t.2.2 ∧ Present g t.2.2 t.2.1

/-- The §3 adjacency-graph invariants: symmetry, duplicate-free neighbor
lists, and no self-loops — together with well-formedness of the edge table
(`edges.length = count`). -/
def GraphInv (g : DMGraph) : Prop :=
  g.edges.length = g.count ∧
  (∀ i j, j ∈ g.neighbors i → i ∈ g.neighbors j) ∧
  (∀ i, (g.neighbors i).Nodup) ∧
  (∀ i, i ∉ g.neighbors i)

/-- Accumulation lemma for the `polygon_area` loop. -/
lemma poly_foldl (v : List DMVec2) (l : List ℕ) (a : ℚ) :
    l.foldl
      (fun area i =>
        area + (v.getD i default).x * (v.getD ((i + 1) % v.length) default).y
             - (v.getD i default).y * (v.getD ((i + 1) % v.length) default).x) a
    = a + (l.map (fun i =>
        (v.getD i default).x * (v.getD ((i + 1) % v.length) default).y
          - (v.getD i default).y * (v.getD ((i + 1) % v.length) default).x)).sum := by
  induction l generalizing a with
  | nil => simp
  | cons x xs ih =>
    simp only [List.foldl_cons, List.map_cons, List.sum_cons, ih]
    ring

/-- C1: for every vertex list, `polygon_area` returns the raw shoelace sum
without the final ×0.5 factor, i.e. twice the shoelace signed area, with the
same sign convention as the shoelace sum. -/
theorem polygon_area_is_raw_shoelace (vertices : List DMVec2) :
    polygon_area vertices = shoelaceSum vertices ∧
    polygon_area vertices = 2 * shoelaceArea vertices := by
  have h : polygon_area vertices = shoelaceSum vertices := by
    simp only [polygon_area, shoelaceSum]
    rw [poly_foldl]
    simp
  refine ⟨h, ?_⟩
  rw [h]
  unfold shoelaceArea
  ring

/-- C8: for every vertex list with fewer than 3 vertices, `polygon_area`
returns 0; the function is total and has no error paths. -/
theorem polygon_area_lt_three_zero (vertices : List DMVec2)
    (h : vertices.length < 3) : polygon_area vertices = 0 := by
  rcases vertices with _ | ⟨p, _ | ⟨q, _ | ⟨r, rest⟩⟩⟩
  · rfl
  · simp [polygon_area, List.range_succ]
    ring
  · simp [polygon_area, List.range_succ]
    ring
  · simp at h
    omega

/-- C8 witness: the two-vertex list `[(1,2),(3,5)]` has length below 3 and
area 0. -/
theorem polygon_area_lt_three_zero_witness :
    ([⟨1, 2⟩, ⟨3, 5⟩] : List DMVec2).length < 3 ∧
      polygon_area [⟨1, 2⟩, ⟨3, 5⟩] = 0 :=
  ⟨by decide, polygon_area_lt_three_zero [⟨1, 2⟩, ⟨3, 5⟩] (by decide)⟩

/-- Modifying an index does not change the length. -/
lemma listModify_length {α : Type} (f : α → α) (n : ℕ) (l : List α) :
    (listModify f n l).length = l.length := by
  induction l generalizing n with
  | nil => cases n <;> rfl
  | cons x xs ih =>
    cases n with
    | zero => rfl
    | succ m => simpa [listModify] using ih m

/-- Modifying an out-of-range index is a no-op. -/
lemma listModify_out {α : Type} (f : α → α) (n : ℕ) (l : List α)
    (h : l.length ≤ n) : listModify f n l = l := by
  induction l generalizing n with
  | nil => cases n <;> rfl
  | cons x xs ih =>
    cases n with
    | zero => simp at h
    | succ m =>
      simp only [listModify]
      rw [ih m (by simpa using h)]

/-- Reads away from the modified index are unchanged. -/
lemma listModify_getD_ne {α : Type} (f : α → α) (d : α) (n : ℕ) (l : List α)
    (i : ℕ) (h : i ≠ n) : (listModify f n l).getD i d = l.getD i d := by
  induction l generalizing n i with
  | nil => cases n <;> rfl
  | cons x xs ih =>
    cases n with
    | zero =>
      cases i with
      | zero => exact absurd rfl h
      | succ k => rfl
    | succ m =>
      cases i with
      | zero => rfl
      | succ k => exact ih m k (fun hk => h (by omega))

/-- Reading the modified in-range index gives the modified element. -/
lemma listModify_getD_lt {α : Type} (f : α → α) (d : α) (n : ℕ) (l : List α)
    (h : n < l.length) : (listModify f n l).getD n d = f (l.getD n d) := by
  induction l generalizing n with
  | nil => simp at h
  | cons x xs ih =>
    cases n with
    | zero => rfl
    | succ m => exact ih m (by simpa using h)

/-- Modification that fixes the stored element is a no-op. -/
lemma listModify_self {α : Type} (f : α → α) (d : α) (n : ℕ) (l : List α)
    (h : f (l.getD n d) = l.getD n d) : listModify f n l = l := by
  induction l generalizing n with
  | nil => cases n <;> rfl
  | cons x xs ih =>
    cases n with
    | zero => simpa [listModify] using h
    | succ m =>
      simp only [listModify]
      rw [ih m h]

lemma connect_single_edges_length (g : DMGraph) (a b : ℕ) :
    (g.connect_single a b).edges.length = g.edges.length :=
  listModify_length _ a g.edges

/-- Characterization of neighbor lists after `connect_single`. -/
lemma connect_single_neighbors (g : DMGraph) (a b i : ℕ) :
    (g.connect_single a b).neighbors i =
      if i = a ∧ a < g.edges.length then
        (if b ∈ g.neighbors a then g.neighbors a else g.neighbors a ++ [b])
      else g.neighbors i := by
  unfold DMGraph.connect_single DMGraph.neighbors
  by_cases hia : i = a
  · subst hia
    by_cases hl : i < g.edges.length
    · rw [if_pos ⟨rfl, hl⟩, listModify_getD_lt _ _ _ _ hl]
    · rw [if_neg (fun hc => hl hc.2), listModify_out _ _ _ (le_of_not_lt hl)]
  · rw [if_neg (fun hc => hia hc.1), listModify_getD_ne _ _ _ _ _ hia]

lemma connect_single_neighbors_subset (g : DMGraph) (a b i : ℕ) :
    g.neighbors i ⊆ (g.connect_single a b).neighbors i := by
  rw [connect_single_neighbors]
  split
  · next h =>
    rw [h.1]
    split
    · exact fun x hx => hx
    · exact fun x hx => List.mem_append_left _ hx
  · exact fun x hx => hx

lemma present_connect_single (g : DMGraph) (a b c d : ℕ) (h : Present g a b) :
    Present (g.connect_single c d) a b := by
  cases h with
  | inl h => exact Or.inl (connect_single_neighbors_subset g c d a h)
  | inr h => exact Or.inr (by rw [connect_single_edges_length]; exact h)

lemma present_after_connect_single (g : DMGraph) (a b : ℕ) :
    Present (g.connect_single a b) a b := by
  by_cases hl : a < g.edges.length
  · left
    rw [connect_single_neighbors, if_pos ⟨rfl, hl⟩]
    by_cases hb : b ∈ g.neighbors a
    · simp [hb]
    · simp [hb]
  · right
    rw [connect_single_edges_length]
    omega

lemma connect_single_of_present (g : DMGraph) (a b : ℕ) (h : Present g a b) :
    g.connect_single a b = g := by
  have hfix : listModify (fun l => if b ∈ l then l else l ++ [b]) a g.edges = g.edges := by
    cases h with
    | inl h =>
      refine listModify_self _ [] a g.edges ?_
      have hb : b ∈ g.edges.getD a [] := h
      show (if b ∈ g.edges.getD a [] then g.edges.getD a []
        else g.edges.getD a [] ++ [b]) = g.edges.getD a []
      rw [if_pos hb]
    | inr h => exact listModify_out _ _ _ h
  unfold DMGraph.connect_single
  rw [hfix]

lemma connect_of_present (g : DMGraph) (a b : ℕ)
    (hab : Present g a b) (hba : Present g b a) : g.connect a b = g := by
  unfold DMGraph.connect
  rw [connect_single_of_present g a b hab, connect_single_of_present g b a hba]

lemma present_connect (g : DMGraph) (a b c d : ℕ) (h : Present g a b) :
    Present (g.connect c d) a b :=
  present_connect_single _ _ _ _ _ (present_connect_single _ _ _ _ _ h)

lemma present_after_connect (g : DMGraph) (a b : ℕ) :
    Present (g.connect a b) a b ∧ Present (g.connect a b) b a :=
  ⟨present_connect_single _ _ _ _ _ (present_after_connect_single g a b),
   present_after_connect_single (g.connect_single a b) b a⟩

lemma presentTri_connect (g : DMGraph) (t : ℕ × ℕ × ℕ) (c d : ℕ)
    (h : PresentTri g t) : PresentTri (g.connect c d) t := by
  obtain ⟨h1, h2, h3, h4, h5, h6⟩ := h
  exact ⟨present_connect _ _ _ _ _ h1, present_connect _ _ _ _ _ h2,
    present_connect _ _ _ _ _ h3, present_connect _ _ _ _ _ h4,
    present_connect _ _ _ _ _ h5, present_connect _ _ _ _ _ h6⟩

lemma presentTri_insertTriangle (g : DMGraph) (t u : ℕ × ℕ × ℕ)
    (h : PresentTri g t) : PresentTri (insertTriangle g u) t :=
  presentTri_connect _ _ _ _ (presentTri_connect _ _ _ _ (presentTri_connect _ _ _ _ h))

lemma presentTri_foldl (ch : List (ℕ × ℕ × ℕ)) (g : DMGraph) (t : ℕ × ℕ × ℕ)
    (h : PresentTri g t) : PresentTri (ch.foldl insertTriangle g) t := by
  induction ch generalizing g with
  | nil => exact h
  | cons u us ih => exact ih _ (presentTri_insertTriangle _ _ _ h)

lemma presentTri_after_insertTriangle (g : DMGraph) (t : ℕ × ℕ × ℕ) :
    PresentTri (insertTriangle g t) t := by
  obtain ⟨a, b, c⟩ := t
  have h1 := present_after_connect g a b
  have h2 := present_after_connect (g.connect a b) a c
  have h3 := present_after_connect ((g.connect a b).connect a c) b c
  exact ⟨present_connect _ _ _ _ _ (present_connect _ _ _ _ _ h1.1),
    present_connect _ _ _ _ _ (present_connect _ _ _ _ _ h1.2),
    present_connect _ _ _ _ _ h2.1,
    present_connect _ _ _ _ _ h2.2,
    h3.1, h3.2⟩

lemma insertTriangle_of_presentTri (g : DMGraph) (t : ℕ × ℕ × ℕ)
    (h : PresentTri g t) : insertTriangle g t = g := by
  obtain ⟨a, b, c⟩ := t
  obtain ⟨h1, h2, h3, h4, h5, h6⟩ := h
  show ((g.connect a b).connect a c).connect b c = g
  rw [connect_of_present g a b h1 h2, connect_of_present g a c h3 h4,
    connect_of_present g b c h5 h6]

lemma foldl_insertTriangle_of_presentTri (ch : List (ℕ × ℕ × ℕ)) (g : DMGraph)
    (h : ∀ t ∈ ch, PresentTri g t) : ch.foldl insertTriangle g = g := by
  induction ch with
  | nil => rfl
  | cons u us ih =>
    rw [List.foldl_cons, insertTriangle_of_presentTri g u (h u (by simp))]
    exact ih (fun t ht => h t (by simp [ht]))

lemma presentTri_foldl_self (ch : List (ℕ × ℕ × ℕ)) (g : DMGraph) :
    ∀ t ∈ ch, PresentTri (ch.foldl insertTriangle g) t := by
  induction ch generalizing g with
  | nil => intro t ht; simp at ht
  | cons u us ih =>
    intro t ht
    rw [List.foldl_cons]
    rcases List.mem_cons.mp ht with rfl | hmem
    · exact presentTri_foldl us _ t (presentTri_after_insertTriangle g t)
    · exact ih _ t hmem

/-- C9: edge insertion is idempotent — inserting an already-present edge is a
no-op — and rebuilding from the same triangle list yields the identical
graph. -/
theorem connect_idempotent :
    (∀ (g : DMGraph) (a b : ℕ), b ∈ g.neighbors a → a ∈ g.neighbors b →
        g.connect a b = g) ∧
    (∀ (count : ℕ) (triangles : List ℕ),
        insertTriangles (buildGraph count triangles) triangles =
          buildGraph count triangles) := by
  constructor
  · intro g a b hab hba
    exact connect_of_present g a b (Or.inl hab) (Or.inl hba)
  · intro n ts
    show (chunks3 ts).foldl insertTriangle (buildGraph n ts) = buildGraph n ts
    exact foldl_insertTriangle_of_presentTri _ _ (presentTri_foldl_self _ _)

/-- C9 witness: re-connecting the present edge {0,1} leaves the concrete graph
unchanged, and rebuilding from the triangle list `[0,1,2]` is the identity. -/
theorem connect_idempotent_witness :
    (1 ∈ (DMGraph.mk 2 [[1], [0]]).neighbors 0 ∧
      0 ∈ (DMGraph.mk 2 [[1], [0]]).neighbors 1 ∧
      (DMGraph.mk 2 [[1], [0]]).connect 0 1 = DMGraph.mk 2 [[1], [0]]) ∧
    insertTriangles (buildGraph 3 [0, 1, 2]) [0, 1, 2] = buildGraph 3 [0, 1, 2] :=
  ⟨⟨by decide, by decide,
      connect_idempotent.1 (DMGraph.mk 2 [[1], [0]]) 0 1 (by decide) (by decide)⟩,
    connect_idempotent.2 3 [0, 1, 2]⟩

lemma connect_single_mem_iff (g : DMGraph) (a b : ℕ) (ha : a < g.edges.length)
    (i j : ℕ) :
    j ∈ (g.connect_single a b).neighbors i ↔
      j ∈ g.neighbors i ∨ (i = a ∧ j = b) := by
  rw [connect_single_neighbors]
  by_cases hia : i = a
  · subst hia
    rw [if_pos ⟨rfl, ha⟩]
    by_cases hb : b ∈ g.neighbors i
    · rw [if_pos hb]
      constructor
      · exact fun h => Or.inl h
      · rintro (h | ⟨-, rfl⟩)
        · exact h
        · exact hb
    · rw [if_neg hb]
      simp [List.mem_append]
  · rw [if_neg (fun hc => hia hc.1)]
    constructor
    · exact fun h => Or.inl h
    · rintro (h | ⟨rfl, -⟩)
      · exact h
      · exact absurd rfl hia

lemma connect_edges_length (g : DMGraph) (a b : ℕ) :
    (g.connect a b).edges.length = g.edges.length := by
  unfold DMGraph.connect
  rw [connect_single_edges_length, connect_single_edges_length]

lemma connect_mem_iff (g : DMGraph) (a b : ℕ) (ha : a < g.edges.length)
    (hb : b < g.edges.length) (i j : ℕ) :
    j ∈ (g.connect a b).neighbors i ↔
      j ∈ g.neighbors i ∨ (i = a ∧ j = b) ∨ (i = b ∧ j = a) := by
  unfold DMGraph.connect
  rw [connect_single_mem_iff _ b a (by rw [connect_single_edges_length]; exact hb),
    connect_single_mem_iff g a b ha]
  tauto

/-- List-level characterization of neighbor lists after `connect` for distinct
in-range endpoints. -/
lemma connect_neighbors (g : DMGraph) (a b : ℕ) (hab : a ≠ b)
    (ha : a < g.edges.length) (hb : b < g.edges.length) (i : ℕ) :
    (g.connect a b).neighbors i =
      if i = a then
        (if b ∈ g.neighbors a then g.neighbors a else g.neighbors a ++ [b])
      else if i = b then
        (if a ∈ g.neighbors b then g.neighbors b else g.neighbors b ++ [a])
      else g.neighbors i := by
  have hb1 : b < (g.connect_single a b).edges.length := by
    rw [connect_single_edges_length]
    exact hb
  have e1 : (g.connect_single a b).neighbors b = g.neighbors b := by
    rw [connect_single_neighbors, if_neg (fun hc => hab hc.1.symm)]
  have e2 : ∀ j, j ≠ a → (g.connect_single a b).neighbors j = g.neighbors j := by
    intro j hj
    rw [connect_single_neighbors, if_neg (fun hc => hj hc.1)]
  have e3 : (g.connect_single a b).neighbors a =
      (if b ∈ g.neighbors a then g.neighbors a else g.neighbors a ++ [b]) := by
    rw [connect_single_neighbors, if_pos ⟨rfl, ha⟩]
  show ((g.connect_single a b).connect_single b a).neighbors i = _
  rw [connect_single_neighbors]
  by_cases hib : i = b
  · subst hib
    have hia' : ¬(i = a) := fun hc => hab hc.symm
    rw [if_pos ⟨rfl, hb1⟩, e1, if_neg hia', if_pos rfl]
  · rw [if_neg (fun hc => hib hc.1), if_neg hib]
    by_cases hia : i = a
    · subst hia
      rw [e3, if_pos rfl]
    · rw [e2 i hia, if_neg hia]

lemma replicate_getD {α : Type} (n i : ℕ) (c : α) :
    (List.replicate n c).getD i c = c := by
  induction n generalizing i with
  | zero => cases i <;> rfl
  | succ m ih =>
    cases i with
    | zero => rfl
    | succ k => exact ih k

lemma empty_of_size_neighbors (n i : ℕ) :
    (DMGraph.empty_of_size n).neighbors i = [] := by
  unfold DMGraph.empty_of_size DMGraph.neighbors
  exact replicate_getD n i []

lemma graphInv_empty (n : ℕ) : GraphInv (DMGraph.empty_of_size n) := by
  refine ⟨by simp [DMGraph.empty_of_size], ?_, ?_, ?_⟩
  · intro i j hj
    rw [empty_of_size_neighbors] at hj
    simp at hj
  · intro i
    rw [empty_of_size_neighbors]
    exact List.nodup_nil
  · intro i
    rw [empty_of_size_neighbors]
    simp

/-- The §3 invariants are preserved by `connect` on distinct in-range
endpoints. -/
lemma graphInv_connect (g : DMGraph) (a b : ℕ) (hab : a ≠ b)
    (ha : a < g.count) (hb : b < g.count) (h : GraphInv g) :
    GraphInv (g.connect a b) := by
  obtain ⟨hlen, hsym, hnd, hloop⟩ := h
  have ha' : a < g.edges.length := by rw [hlen]; exact ha
  have hb' : b < g.edges.length := by rw [hlen]; exact hb
  refine ⟨?_, ?_, ?_, ?_⟩
  · rw [connect_edges_length]
    exact hlen
  · intro i j hj
    rw [connect_mem_iff g a b ha' hb'] at hj
    rw [connect_mem_iff g a b ha' hb']
    rcases hj with hj | ⟨rfl, rfl⟩ | ⟨rfl, rfl⟩
    · exact Or.inl (hsym i j hj)
    · exact Or.inr (Or.inr ⟨rfl, rfl⟩)
    · exact Or.inr (Or.inl ⟨rfl, rfl⟩)
  · intro i
    rw [connect_neighbors g a b hab ha' hb']
    by_cases hia : i = a
    · rw [if_pos hia]
      by_cases hmem : b ∈ g.neighbors a
      · rw [if_pos hmem]
        exact hnd a
      · rw [if_neg hmem]
        simp [List.nodup_append, hnd a, hmem]
    · rw [if_neg hia]
      by_cases hib : i = b
      · rw [if_pos hib]
        by_cases hmem : a ∈ g.neighbors b
        · rw [if_pos hmem]
          exact hnd b
        · rw [if_neg hmem]
          simp [List.nodup_append, hnd b, hmem]
      · rw [if_neg hib]
        exact hnd i
  · intro i
    rw [connect_neighbors g a b hab ha' hb']
    by_cases hia : i = a
    · subst hia
      rw [if_pos rfl]
      by_cases hmem : b ∈ g.neighbors i
      · rw [if_pos hmem]
        exact hloop i
      · rw [if_neg hmem]
        simp [List.mem_append, hloop i, hab]
    · rw [if_neg hia]
      by_cases hib : i = b
      · subst hib
        rw [if_pos rfl]
        by_cases hmem : a ∈ g.neighbors i
        · rw [if_pos hmem]
          exact hloop i
        · rw [if_neg hmem]
          simp [List.mem_append, hloop i]
          exact fun hc => hia hc
      · rw [if_neg hib]
        exact hloop i

lemma graphInv_foldl_connect (ops : List (ℕ × ℕ)) (g : DMGraph) (hg : GraphInv g)
    (hops : ∀ p ∈ ops, p.1 ≠ p.2 ∧ p.1 < g.count ∧ p.2 < g.count) :
    GraphInv (ops.foldl (fun g p => g.connect p.1 p.2) g) := by
  induction ops generalizing g with
  | nil => exact hg
  | cons p ps ih =>
    rw [List.foldl_cons]
    obtain ⟨h1, h2, h3⟩ := hops p (by simp)
    refine ih _ (graphInv_connect g p.1 p.2 h1 h2 h3 hg) ?_
    intro q hq
    exact hops q (by simp [hq])

lemma graphInv_insertTriangle (g : DMGraph) (t : ℕ × ℕ × ℕ) (hg : GraphInv g)
    (hd : t.1 ≠ t.2.1 ∧ t.1 ≠ t.2.2 ∧ t.2.1 ≠ t.2.2)
    (hr : t.1 < g.count ∧ t.2.1 < g.count ∧ t.2.2 < g.count) :
    GraphInv (insertTriangle g t) := by
  obtain ⟨a, b, c⟩ := t
  obtain ⟨d1, d2, d3⟩ := hd
  obtain ⟨r1, r2, r3⟩ := hr
  exact graphInv_connect _ _ _ d3 r2 r3
    (graphInv_connect _ _ _ d2 r1 r3 (graphInv_connect _ _ _ d1 r1 r2 hg))

lemma graphInv_foldl_insertTriangle (ch : List (ℕ × ℕ × ℕ)) (g : DMGraph)
    (hg : GraphInv g)
    (h : ∀ t ∈ ch, (t.1 ≠ t.2.1 ∧ t.1 ≠ t.2.2 ∧ t.2.1 ≠ t.2.2) ∧
        (t.1 < g.count ∧ t.2.1 < g.count ∧ t.2.2 < g.count)) :
    GraphInv (ch.foldl insertTriangle g) := by
  induction ch generalizing g with
  | nil => exact hg
  | cons u us ih =>
    rw [List.foldl_cons]
    refine ih _ (graphInv_insertTriangle g u hg (h u (by simp)).1 (h u (by simp)).2) ?_
    intro t ht
    exact h t (by simp [ht])

/-- C2 counterexample: the single connect operation `connect 0 0` — a legal
call on the source type — produces the self-loop `0 ∈ neighbors(0)`, so the
invariant does not hold for every sequence of connect operations. -/
theorem connect_self_loop_cex :
    (applyConnects 1 [(0, 0)]).neighbors 0 = [0] ∧
      0 ∈ (applyConnects 1 [(0, 0)]).neighbors 0 := by
  constructor <;> decide

/-- C2 (amended): for every sequence of connect operations whose endpoints are
distinct and in range — as is the case for the edges of triangles with
distinct in-range vertex indices, and hence for the graphs built by either
byond operation — the resulting graph is symmetric, has duplicate-free
neighbor lists, and has no self-loops. -/
theorem connect_ops_invariants (size : ℕ) (ops : List (ℕ × ℕ))
    (hops : ∀ p ∈ ops, p.1 ≠ p.2 ∧ p.1 < size ∧ p.2 < size) :
    GraphInv (applyConnects size ops) ∧
    ∀ triangles : List ℕ,
      (∀ t ∈ chunks3 triangles,
        (t.1 ≠ t.2.1 ∧ t.1 ≠ t.2.2 ∧ t.2.1 ≠ t.2.2) ∧
        (t.1 < size ∧ t.2.1 < size ∧ t.2.2 < size)) →
      GraphInv (buildGraph size triangles) := by
  constructor
  · exact graphInv_foldl_connect ops _ (graphInv_empty size) hops
  · intro ts hts
    exact graphInv_foldl_insertTriangle (chunks3 ts) _ (graphInv_empty size) hts

/-- C2 witness: a concrete operation sequence on 3 vertices, and the concrete
triangle list `[0,1,2]`, both satisfy the invariants. -/
theorem connect_ops_invariants_witness :
    (∀ p ∈ ([(0, 1), (1, 2)] : List (ℕ × ℕ)), p.1 ≠ p.2 ∧ p.1 < 3 ∧ p.2 < 3) ∧
    GraphInv (applyConnects 3 [(0, 1), (1, 2)]) ∧
    ((∀ t ∈ chunks3 [0, 1, 2],
        (t.1 ≠ t.2.1 ∧ t.1 ≠ t.2.2 ∧ t.2.1 ≠ t.2.2) ∧
        (t.1 < 3 ∧ t.2.1 < 3 ∧ t.2.2 < 3)) ∧
      GraphInv (buildGraph 3 [0, 1, 2])) :=
  ⟨by decide, (connect_ops_invariants 3 [(0, 1), (1, 2)] (by decide)).1,
    by decide, (connect_ops_invariants 3 [(0, 1), (1, 2)] (by decide)).2 [0, 1, 2] (by decide)⟩

lemma buildGraph_nil (n : ℕ) : buildGraph n [] = DMGraph.empty_of_size n := rfl

/-- C7: when the triangulation yields zero triangles — as it does for N ≤ 2
points or a fully collinear point set — the triangulate-to-graph operation
returns a graph with count N and every neighbor list empty. -/
theorem degenerate_triangulation_graph_empty
    (triangulate : List DMVec2 → List ℕ) (hspec : DelaunayDegenerate triangulate)
    (points : List DMVec2)
    (h : points.length ≤ 2 ∨ collinearB points = true) :
    (geometry_delaunay_triangulate_to_graph triangulate points).count = points.length ∧
    (geometry_delaunay_triangulate_to_graph triangulate points).edges =
      List.replicate points.length [] := by
  unfold geometry_delaunay_triangulate_to_graph
  rw [hspec points h, buildGraph_nil]
  exact ⟨rfl, rfl⟩

/-- C7 witness: a triangulation respecting the degenerate contract, applied to
the concrete collinear two-point set (0,0), (1,0), gives the edgeless
2-vertex graph. -/
theorem degenerate_triangulation_graph_empty_witness :
    DelaunayDegenerate (fun _ => []) ∧
    (([⟨0, 0⟩, ⟨1, 0⟩] : List DMVec2).length ≤ 2 ∨
      collinearB [⟨0, 0⟩, ⟨1, 0⟩] = true) ∧
    ((geometry_delaunay_triangulate_to_graph (fun _ => []) [⟨0, 0⟩, ⟨1, 0⟩]).count =
      ([⟨0, 0⟩, ⟨1, 0⟩] : List DMVec2).length ∧
    (geometry_delaunay_triangulate_to_graph (fun _ => []) [⟨0, 0⟩, ⟨1, 0⟩]).edges =
      List.replicate ([⟨0, 0⟩, ⟨1, 0⟩] : List DMVec2).length []) :=
  ⟨fun _ _ => rfl, Or.inl (by decide),
    degenerate_triangulation_graph_empty (fun _ => []) (fun _ _ => rfl)
      [⟨0, 0⟩, ⟨1, 0⟩] (Or.inl (by decide))⟩

lemma getD_map_range {α : Type} (f : ℕ → α) (d : α) (n i : ℕ) (h : i < n) :
    (((List.range n).map f).getD i d) = f i := by
  simp [List.getD_eq_getElem?_getD, List.getElem?_map, List.getElem?_range, h]

lemma foldl_min_le (l : List ℚ) (a : ℚ) :
    l.foldl min a ≤ a ∧ ∀ v ∈ l, l.foldl min a ≤ v := by
  induction l generalizing a with
  | nil => exact ⟨le_refl a, by simp⟩
  | cons x xs ih =>
    rw [List.foldl_cons]
    obtain ⟨h1, h2⟩ := ih (min a x)
    refine ⟨le_trans h1 (min_le_left a x), ?_⟩
    intro v hv
    rcases List.mem_cons.mp hv with rfl | hv
    · exact le_trans h1 (min_le_right a v)
    · exact h2 v hv

lemma foldl_min_mem (l : List ℚ) (a : ℚ) :
    l.foldl min a = a ∨ l.foldl min a ∈ l := by
  induction l generalizing a with
  | nil => exact Or.inl rfl
  | cons x xs ih =>
    rw [List.foldl_cons]
    rcases ih (min a x) with h | h
    · rcases min_choice a x with hm | hm
      · exact Or.inl (h.trans hm)
      · exact Or.inr (by rw [h, hm]; exact List.mem_cons_self x xs)
    · exact Or.inr (List.mem_cons_of_mem x h)

lemma foldl_min_eq (l : List ℚ) (a mn : ℚ)
    (hmem : mn = a ∨ mn ∈ l) (ha : mn ≤ a) (hl : ∀ v ∈ l, mn ≤ v) :
    l.foldl min a = mn := by
  obtain ⟨h1, h2⟩ := foldl_min_le l a
  apply le_antisymm
  · rcases hmem with rfl | hm
    · exact h1
    · exact h2 mn hm
  · rcases foldl_min_mem l a with h | h
    · rw [h]
      exact ha
    · exact hl _ h

lemma foldl_max_le (l : List ℚ) (a : ℚ) :
    a ≤ l.foldl max a ∧ ∀ v ∈ l, v ≤ l.foldl max a := by
  induction l generalizing a with
  | nil => exact ⟨le_refl a, by simp⟩
  | cons x xs ih =>
    rw [List.foldl_cons]
    obtain ⟨h1, h2⟩ := ih (max a x)
    refine ⟨le_trans (le_max_left a x) h1, ?_⟩
    intro v hv
    rcases List.mem_cons.mp hv with rfl | hv
    · exact le_trans (le_max_right a v) h1
    · exact h2 v hv

lemma foldl_max_mem (l : List ℚ) (a : ℚ) :
    l.foldl max a = a ∨ l.foldl max a ∈ l := by
  induction l generalizing a with
  | nil => exact Or.inl rfl
  | cons x xs ih =>
    rw [List.foldl_cons]
    rcases ih (max a x) with h | h
    · rcases max_choice a x with hm | hm
      · exact Or.inl (h.trans hm)
      · exact Or.inr (by rw [h, hm]; exact List.mem_cons_self x xs)
    · exact Or.inr (List.mem_cons_of_mem x h)

lemma foldl_max_eq (l : List ℚ) (a mx : ℚ)
    (hmem : mx = a ∨ mx ∈ l) (ha : a ≤ mx) (hl : ∀ v ∈ l, v ≤ mx) :
    l.foldl max a = mx := by
  obtain ⟨h1, h2⟩ := foldl_max_le l a
  apply le_antisymm
  · rcases foldl_max_mem l a with h | h
    · rw [h]
      exact ha
    · exact hl _ h
  · rcases hmem with rfl | hm
    · exact h1
    · exact h2 mx hm

lemma scanBounds_cons_aux (ps : List DMVec2) (xl xh yl yh : ℚ) :
    ps.foldl
      (fun acc p =>
        match acc with
        | none => some (p.x, p.x, p.y, p.y)
        | some (xl, xh, yl, yh) =>
            some (min xl p.x, max xh p.x, min yl p.y, max yh p.y))
      (some (xl, xh, yl, yh)) =
      some ((ps.map DMVec2.x).foldl min xl, (ps.map DMVec2.x).foldl max xh,
        (ps.map DMVec2.y).foldl min yl, (ps.map DMVec2.y).foldl max yh) := by
  induction ps generalizing xl xh yl yh with
  | nil => rfl
  | cons p ps ih =>
    rw [List.foldl_cons]
    simp only [List.map_cons, List.foldl_cons]
    exact ih (min xl p.x) (max xh p.x) (min yl p.y) (max yh p.y)

lemma scanBounds_eq (p : DMVec2) (ps : List DMVec2) :
    scanBounds (p :: ps) =
      some ((ps.map DMVec2.x).foldl min p.x, (ps.map DMVec2.x).foldl max p.x,
        (ps.map DMVec2.y).foldl min p.y, (ps.map DMVec2.y).foldl max p.y) := by
  unfold scanBounds
  rw [List.foldl_cons]
  exact scanBounds_cons_aux ps p.x p.x p.y p.y

/-- C6: for every nonempty point set and margin, the bounding box has center
the midpoint of (min, max) on each axis, width (max_x − min_x) + 2·margin and
height (max_y − min_y) + 2·margin, the min/max taken over all input
coordinates. -/
theorem voronoi_bounding_box_formula (points : List DMVec2) (margin : ℚ)
    (mnx mxx mny mxy : ℚ) (hne : points ≠ [])
    (hmnx : mnx ∈ points.map DMVec2.x ∧ ∀ v ∈ points.map DMVec2.x, mnx ≤ v)
    (hmxx : mxx ∈ points.map DMVec2.x ∧ ∀ v ∈ points.map DMVec2.x, v ≤ mxx)
    (hmny : mny ∈ points.map DMVec2.y ∧ ∀ v ∈ points.map DMVec2.y, mny ≤ v)
    (hmxy : mxy ∈ points.map DMVec2.y ∧ ∀ v ∈ points.map DMVec2.y, v ≤ mxy) :
    voronoiBoundingBox points margin =
      some { center := { x := (mnx + mxx) / 2, y := (mny + mxy) / 2 }
             width := (mxx - mnx) + 2 * margin
             height := (mxy - mny) + 2 * margin } := by
  obtain ⟨p, ps, rfl⟩ := List.exists_cons_of_ne_nil hne
  have ex1 : (ps.map DMVec2.x).foldl min p.x = mnx := by
    refine foldl_min_eq _ _ _ ?_ ?_ ?_
    · simpa using List.mem_cons.mp hmnx.1
    · exact hmnx.2 p.x (by simp)
    · exact fun v hv => hmnx.2 v (by simp [hv])
  have ex2 : (ps.map DMVec2.x).foldl max p.x = mxx := by
    refine foldl_max_eq _ _ _ ?_ ?_ ?_
    · simpa using List.mem_cons.mp hmxx.1
    · exact hmxx.2 p.x (by simp)
    · exact fun v hv => hmxx.2 v (by simp [hv])
  have ex3 : (ps.map DMVec2.y).foldl min p.y = mny := by
    refine foldl_min_eq _ _ _ ?_ ?_ ?_
    · simpa using List.mem_cons.mp hmny.1
    · exact hmny.2 p.y (by simp)
    · exact fun v hv => hmny.2 v (by simp [hv])
  have ex4 : (ps.map DMVec2.y).foldl max p.y = mxy := by
    refine foldl_max_eq _ _ _ ?_ ?_ ?_
    · simpa using List.mem_cons.mp hmxy.1
    · exact hmxy.2 p.y (by simp)
    · exact fun v hv => hmxy.2 v (by simp [hv])
  unfold voronoiBoundingBox
  rw [scanBounds_eq, ex1, ex2, ex3, ex4]
  simp only [Option.some.injEq, BoundingBox.mk.injEq, DMVec2.mk.injEq]
  refine ⟨⟨?_, ?_⟩, ?_, ?_⟩ <;> ring

/-- C6 witness: the concrete point set (0,0), (2,6) with margin 1 gives center
(1, 3), width 4 and height 8. -/
theorem voronoi_bounding_box_formula_witness :
    (([⟨0, 0⟩, ⟨2, 6⟩] : List DMVec2) ≠ [] ∧
      ((0 : ℚ) ∈ ([⟨0, 0⟩, ⟨2, 6⟩] : List DMVec2).map DMVec2.x ∧
        ∀ v ∈ ([⟨0, 0⟩, ⟨2, 6⟩] : List DMVec2).map DMVec2.x, (0 : ℚ) ≤ v)) ∧
    voronoiBoundingBox [⟨0, 0⟩, ⟨2, 6⟩] 1 =
      some { center := { x := (0 + 2) / 2, y := (0 + 6) / 2 }
             width := (2 - 0) + 2 * 1
             height := (6 - 0) + 2 * 1 } :=
  ⟨⟨by decide, by norm_num, by norm_num⟩,
    voronoi_bounding_box_formula [⟨0, 0⟩, ⟨2, 6⟩] 1 0 2 0 6 (by decide)
      ⟨by norm_num, by norm_num⟩ ⟨by norm_num, by norm_num⟩
      ⟨by norm_num, by norm_num⟩ ⟨by norm_num, by norm_num⟩⟩

lemma voronoiBoundingBox_cons (p : DMVec2) (ps : List DMVec2) (margin : ℚ) :
    voronoiBoundingBox (p :: ps) margin =
      some { center := { x := (ps.map DMVec2.x).foldl min p.x +
                              ((ps.map DMVec2.x).foldl max p.x -
                                (ps.map DMVec2.x).foldl min p.x) * (1/2),
                         y := (ps.map DMVec2.y).foldl min p.y +
                              ((ps.map DMVec2.y).foldl max p.y -
                                (ps.map DMVec2.y).foldl min p.y) * (1/2) }
             width := ((ps.map DMVec2.x).foldl max p.x - (ps.map DMVec2.x).foldl min p.x) +
                      margin * 2
             height := ((ps.map DMVec2.y).foldl max p.y - (ps.map DMVec2.y).foldl min p.y) +
                       margin * 2 } := by
  unfold voronoiBoundingBox
  rw [scanBounds_eq]

lemma voronoi_graph_success
    (build : List DMVec2 → BoundingBox → Option VoronoiDiagram)
    (call : DMDelaunayVoronoiCall) (bb : BoundingBox) (vd : VoronoiDiagram)
    (hbb : voronoiBoundingBox call.points call.margin = some bb)
    (hbuild : build call.points bb = some vd) :
    geometry_delaunay_voronoi_graph build call =
      some { graph := buildGraph call.points.length vd.triangles
             areas := (List.range call.points.length).map
               (fun i => if fpNeZero call.area then
                 some (polygon_area (vd.cells.getD i [])) else none)
             cells := (List.range call.points.length).map
               (fun i => if fpNeZero call.cell then some (vd.cells.getD i []) else none) } := by
  simp only [geometry_delaunay_voronoi_graph, hbb, hbuild]

lemma voronoi_slots_spec
    (build : List DMVec2 → BoundingBox → Option VoronoiDiagram)
    (call : DMDelaunayVoronoiCall) (bb : BoundingBox) (vd : VoronoiDiagram)
    (hbb : voronoiBoundingBox call.points call.margin = some bb)
    (hbuild : build call.points bb = some vd) :
    ∃ ret, geometry_delaunay_voronoi_graph build call = some ret ∧
      ret.areas.length = call.points.length ∧
      ret.cells.length = call.points.length ∧
      (∀ i, i < call.points.length →
        ret.areas.getD i none =
          if fpNeZero call.area then some (polygon_area (vd.cells.getD i [])) else none) ∧
      (∀ i, i < call.points.length →
        ret.cells.getD i none =
          if fpNeZero call.cell then some (vd.cells.getD i []) else none) := by
  refine ⟨_, voronoi_graph_success build call bb vd hbb hbuild, ?_, ?_, ?_, ?_⟩
  · simp
  · simp
  · intro i hi
    dsimp only
    exact getD_map_range _ _ _ _ hi
  · intro i hi
    dsimp only
    exact getD_map_range _ _ _ _ hi

/-- C3 counterexample: with the two-point set (0,0), (10,0) and margin −1 the
call is not rejected: no InvalidArgument path exists, the bounding box is
computed with width 8 — smaller than the x spread 10 — and the call completes
against a builder that succeeds. -/
theorem negative_margin_not_rejected_cex :
    voronoiBoundingBox [⟨0, 0⟩, ⟨10, 0⟩] (-1) =
      some { center := { x := 5, y := 0 }, width := 8, height := -2 } ∧
    geometry_delaunay_voronoi_graph
      (fun _ _ => some { triangles := [], cells := [[], []] })
      { area := F64.finite 0, cell := F64.finite 0, margin := -1,
        points := [⟨0, 0⟩, ⟨10, 0⟩] } ≠ none := by
  constructor
  · norm_num [voronoiBoundingBox, scanBounds]
  · have h := voronoi_graph_success
      (fun _ _ => some { triangles := [], cells := [[], []] })
      { area := F64.finite 0, cell := F64.finite 0, margin := -1,
        points := [⟨0, 0⟩, ⟨10, 0⟩] }
      { center := { x := 5, y := 0 }, width := 8, height := -2 }
      { triangles := [], cells := [[], []] }
      (by norm_num [voronoiBoundingBox, scanBounds]) rfl
    rw [h]
    exact Option.some_ne_none _

/-- C3 (corrected): the Voronoi call performs no margin validation and has no
InvalidArgument outcome: for every nonempty point set and every negative
margin it computes the bounding box — strictly smaller than the point spread
on both axes — and proceeds to diagram construction, failing only if the
builder itself fails. -/
theorem negative_margin_no_validation (points : List DMVec2) (margin : ℚ)
    (hne : points ≠ []) (hm : margin < 0) :
    ∃ xl xh yl yh, scanBounds points = some (xl, xh, yl, yh) ∧
      voronoiBoundingBox points margin =
        some { center := { x := xl + (xh - xl) * (1/2), y := yl + (yh - yl) * (1/2) }
               width := (xh - xl) + margin * 2
               height := (yh - yl) + margin * 2 } ∧
      (xh - xl) + margin * 2 < xh - xl ∧
      (yh - yl) + margin * 2 < yh - yl ∧
      ∀ (build : List DMVec2 → BoundingBox → Option VoronoiDiagram) (a c : F64),
        (∀ bb, build points bb ≠ none) →
        geometry_delaunay_voronoi_graph build
          { area := a, cell := c, margin := margin, points := points } ≠ none := by
  obtain ⟨p, ps, rfl⟩ := List.exists_cons_of_ne_nil hne
  refine ⟨(ps.map DMVec2.x).foldl min p.x, (ps.map DMVec2.x).foldl max p.x,
    (ps.map DMVec2.y).foldl min p.y, (ps.map DMVec2.y).foldl max p.y,
    scanBounds_eq p ps, voronoiBoundingBox_cons p ps margin,
    by linarith, by linarith, ?_⟩
  intro build a c hbuild
  obtain ⟨bb, hbb⟩ : ∃ bb, voronoiBoundingBox (p :: ps) margin = some bb :=
    ⟨_, voronoiBoundingBox_cons p ps margin⟩
  simp only [geometry_delaunay_voronoi_graph, hbb]
  cases hb : build (p :: ps) bb with
  | none => exact absurd hb (hbuild bb)
  | some vd => simp

/-- C3 witness: the amended statement at the concrete point set (0,0), (10,0)
and margin −1. -/
theorem negative_margin_no_validation_witness :
    (([⟨0, 0⟩, ⟨10, 0⟩] : List DMVec2) ≠ [] ∧ (-1 : ℚ) < 0) ∧
    (∃ xl xh yl yh, scanBounds [⟨0, 0⟩, ⟨10, 0⟩] = some (xl, xh, yl, yh) ∧
      voronoiBoundingBox [⟨0, 0⟩, ⟨10, 0⟩] (-1) =
        some { center := { x := xl + (xh - xl) * (1/2), y := yl + (yh - yl) * (1/2) }
               width := (xh - xl) + (-1 : ℚ) * 2
               height := (yh - yl) + (-1 : ℚ) * 2 } ∧
      (xh - xl) + (-1 : ℚ) * 2 < xh - xl ∧
      (yh - yl) + (-1 : ℚ) * 2 < yh - yl ∧
      ∀ (build : List DMVec2 → BoundingBox → Option VoronoiDiagram) (a c : F64),
        (∀ bb, build [⟨0, 0⟩, ⟨10, 0⟩] bb ≠ none) →
        geometry_delaunay_voronoi_graph build
          { area := a, cell := c, margin := -1, points := [⟨0, 0⟩, ⟨10, 0⟩] } ≠ none) :=
  ⟨⟨by decide, by norm_num⟩,
    negative_margin_no_validation [⟨0, 0⟩, ⟨10, 0⟩] (-1) (by decide) (by norm_num)⟩

/-- C4: whenever the Voronoi diagram cannot be built, the whole call fails
with the single failure signal and returns no partial graph, areas, or
cells. -/
theorem voronoi_failure_aborts_whole_call
    (build : List DMVec2 → BoundingBox → Option VoronoiDiagram)
    (call : DMDelaunayVoronoiCall)
    (h : ∀ bb, voronoiBoundingBox call.points call.margin = some bb →
      build call.points bb = none) :
    geometry_delaunay_voronoi_graph build call = none := by
  cases hbb : voronoiBoundingBox call.points call.margin with
  | none => simp only [geometry_delaunay_voronoi_graph, hbb]
  | some bb => simp only [geometry_delaunay_voronoi_graph, hbb, h bb hbb]

/-- C4 witness: the zero-margin single-point call — the claim's degenerate
bounding box example — against the failing builder returns the bare failure
signal. -/
theorem voronoi_failure_aborts_whole_call_witness :
    (∀ bb, voronoiBoundingBox ([⟨0, 0⟩] : List DMVec2) (0 : ℚ) = some bb →
      (fun (_ : List DMVec2) (_ : BoundingBox) => (none : Option VoronoiDiagram))
        [⟨0, 0⟩] bb = none) ∧
    geometry_delaunay_voronoi_graph (fun _ _ => none)
      { area := F64.finite 1, cell := F64.finite 1, margin := 0,
        points := [⟨0, 0⟩] } = none :=
  ⟨fun _ _ => rfl, voronoi_failure_aborts_whole_call _ _ (fun _ _ => rfl)⟩

/-- C5: every successful call returns one area slot and one cell slot per
input point, in input order; slot i is absent exactly when the corresponding
flag is zero and otherwise holds site i's computed value. -/
theorem voronoi_reply_slots
    (build : List DMVec2 → BoundingBox → Option VoronoiDiagram)
    (call : DMDelaunayVoronoiCall) (bb : BoundingBox) (vd : VoronoiDiagram)
    (hbb : voronoiBoundingBox call.points call.margin = some bb)
    (hbuild : build call.points bb = some vd) :
    ∃ ret, geometry_delaunay_voronoi_graph build call = some ret ∧
      ret.areas.length = call.points.length ∧
      ret.cells.length = call.points.length ∧
      (∀ i, i < call.points.length →
        ret.areas.getD i none =
          if fpNeZero call.area then some (polygon_area (vd.cells.getD i [])) else none) ∧
      (∀ i, i < call.points.length →
        ret.cells.getD i none =
          if fpNeZero call.cell then some (vd.cells.getD i []) else none) :=
  voronoi_slots_spec build call bb vd hbb hbuild

/-- C5 witness: a concrete one-point call requesting only areas. -/
theorem voronoi_reply_slots_witness :
    (voronoiBoundingBox ([⟨0, 0⟩] : List DMVec2) (1 : ℚ) =
      some { center := { x := 0, y := 0 }, width := 2, height := 2 }) ∧
    (∃ ret, geometry_delaunay_voronoi_graph
        (fun _ _ => some { triangles := [],
                           cells := [[⟨-1, -1⟩, ⟨1, -1⟩, ⟨1, 1⟩, ⟨-1, 1⟩]] })
        { area := F64.finite 1, cell := F64.finite 0, margin := 1,
          points := [⟨0, 0⟩] } = some ret ∧
      ret.areas.length = 1 ∧
      ret.cells.length = 1 ∧
      (∀ i, i < 1 →
        ret.areas.getD i none =
          if fpNeZero (F64.finite 1) then
            some (polygon_area
              (([[⟨-1, -1⟩, ⟨1, -1⟩, ⟨1, 1⟩, ⟨-1, 1⟩]] : List (List DMVec2)).getD i []))
          else none) ∧
      (∀ i, i < 1 →
        ret.cells.getD i none =
          if fpNeZero (F64.finite 0) then
            some (([[⟨-1, -1⟩, ⟨1, -1⟩, ⟨1, 1⟩, ⟨-1, 1⟩]] : List (List DMVec2)).getD i [])
          else none)) :=
  ⟨by norm_num [voronoiBoundingBox, scanBounds],
    voronoi_reply_slots
      (fun _ _ => some ⟨[], [[⟨-1, -1⟩, ⟨1, -1⟩, ⟨1, 1⟩, ⟨-1, 1⟩]]⟩)
      ⟨F64.finite 1, F64.finite 0, 1, [⟨0, 0⟩]⟩
      ⟨⟨0, 0⟩, 2, 2⟩ ⟨[], [[⟨-1, -1⟩, ⟨1, -1⟩, ⟨1, 1⟩, ⟨-1, 1⟩]]⟩
      (by norm_num [voronoiBoundingBox, scanBounds]) rfl⟩

/-- C10: the request flags are decided by the IEEE-754 comparison
`flag != 0.0`: a flag of −0.0 is treated as zero and the per-site output is
omitted, while a NaN flag is treated as nonzero and the per-site output is
included. -/
theorem flag_comparison_ieee :
    (fpNeZero F64.negZero = false ∧ fpNeZero F64.nan = true) ∧
    ∀ (build : List DMVec2 → BoundingBox → Option VoronoiDiagram)
      (a c : F64) (m : ℚ) (ps : List DMVec2) (bb : BoundingBox)
      (vd : VoronoiDiagram) (i : ℕ),
      voronoiBoundingBox ps m = some bb → build ps bb = some vd →
      i < ps.length →
      ((∃ r, geometry_delaunay_voronoi_graph build
          { area := F64.negZero, cell := c, margin := m, points := ps } = some r ∧
          r.areas.getD i none = none) ∧
       (∃ r, geometry_delaunay_voronoi_graph build
          { area := F64.nan, cell := c, margin := m, points := ps } = some r ∧
          r.areas.getD i none = some (polygon_area (vd.cells.getD i []))) ∧
       (∃ r, geometry_delaunay_voronoi_graph build
          { area := a, cell := F64.negZero, margin := m, points := ps } = some r ∧
          r.cells.getD i none = none) ∧
       (∃ r, geometry_delaunay_voronoi_graph build
          { area := a, cell := F64.nan, margin := m, points := ps } = some r ∧
          r.cells.getD i none = some (vd.cells.getD i []))) := by
  refine ⟨⟨rfl, rfl⟩, ?_⟩
  intro build a c m ps bb vd i hbb hbuild hi
  refine ⟨?_, ?_, ?_, ?_⟩
  · obtain ⟨r, h1, -, -, h4, -⟩ :=
      voronoi_slots_spec build { area := F64.negZero, cell := c, margin := m, points := ps }
        bb vd hbb hbuild
    exact ⟨r, h1, by rw [h4 i hi]; rfl⟩
  · obtain ⟨r, h1, -, -, h4, -⟩ :=
      voronoi_slots_spec build { area := F64.nan, cell := c, margin := m, points := ps }
        bb vd hbb hbuild
    exact ⟨r, h1, by rw [h4 i hi]; rfl⟩
  · obtain ⟨r, h1, -, -, -, h5⟩ :=
      voronoi_slots_spec build { area := a, cell := F64.negZero, margin := m, points := ps }
        bb vd hbb hbuild
    exact ⟨r, h1, by rw [h5 i hi]; rfl⟩
  · obtain ⟨r, h1, -, -, -, h5⟩ :=
      voronoi_slots_spec build { area := a, cell := F64.nan, margin := m, points := ps }
        bb vd hbb hbuild
    exact ⟨r, h1, by rw [h5 i hi]; rfl⟩

/-- C10 witness: the concrete one-point call with a −0.0 area flag and a NaN
cell flag omits the area slot and includes the cell slot. -/
theorem flag_comparison_ieee_witness :
    (voronoiBoundingBox ([⟨0, 0⟩] : List DMVec2) (1 : ℚ) =
      some { center := { x := 0, y := 0 }, width := 2, height := 2 }) ∧ (0 : ℕ) < 1 ∧
    (∃ r, geometry_delaunay_voronoi_graph
        (fun _ _ => some { triangles := [],
                           cells := [[⟨-1, -1⟩, ⟨1, -1⟩, ⟨1, 1⟩, ⟨-1, 1⟩]] })
        { area := F64.negZero, cell := F64.finite 0, margin := 1,
          points := [⟨0, 0⟩] } = some r ∧
      r.areas.getD 0 none = none) ∧
    (∃ r, geometry_delaunay_voronoi_graph
        (fun _ _ => some { triangles := [],
                           cells := [[⟨-1, -1⟩, ⟨1, -1⟩, ⟨1, 1⟩, ⟨-1, 1⟩]] })
        { area := F64.finite 2, cell := F64.nan, margin := 1,
          points := [⟨0, 0⟩] } = some r ∧
      r.cells.getD 0 none =
        some (([[⟨-1, -1⟩, ⟨1, -1⟩, ⟨1, 1⟩, ⟨-1, 1⟩]] : List (List DMVec2)).getD 0 [])) :=
  ⟨by norm_num [voronoiBoundingBox, scanBounds], by decide,
    (flag_comparison_ieee.2
        (fun _ _ => some ⟨[], [[⟨-1, -1⟩, ⟨1, -1⟩, ⟨1, 1⟩, ⟨-1, 1⟩]]⟩)
        (F64.finite 2) (F64.finite 0) 1 [⟨0, 0⟩] ⟨⟨0, 0⟩, 2, 2⟩
        ⟨[], [[⟨-1, -1⟩, ⟨1, -1⟩, ⟨1, 1⟩, ⟨-1, 1⟩]]⟩ 0
        (by norm_num [voronoiBoundingBox, scanBounds]) rfl (by decide)).1,
    (flag_comparison_ieee.2
        (fun _ _ => some ⟨[], [[⟨-1, -1⟩, ⟨1, -1⟩, ⟨1, 1⟩, ⟨-1, 1⟩]]⟩)
        (F64.finite 2) (F64.finite 0) 1 [⟨0, 0⟩] ⟨⟨0, 0⟩, 2, 2⟩
        ⟨[], [[⟨-1, -1⟩, ⟨1, -1⟩, ⟨1, 1⟩, ⟨-1, 1⟩]]⟩ 0
        (by norm_num [voronoiBoundingBox, scanBounds]) rfl (by decide)).2.2.2⟩

end RustG
